import Mathlib

/-!
Verification of the scheduling core of the `seq_dec_mak` course repository:
the Serial Schedule Generation Scheme (SGS), the greedy permutation search
driving it, the critical-path computation, and the notebook helper functions.

The repository ships the SGS as an exercise stub (the correction file
`correction/nb1_correction.py` is referenced but not distributed), so the
body of `sgs_algorithm` is modelled from the specification (spec.md §4.3),
while `greedy_local_search`, the predecessor-inversion pass, the critical
path notebook cell and `get_successors_of_task` are embedded from the
notebook sources.

Tasks and resources are identified by natural numbers.  A schedule is an
association list from task to (start time, end time); Python dictionaries
become association lists, numpy capacity arrays become functions
`ℕ → ℕ → ℕ` (resource, time step ↦ units).
-/

/-- The RCPSP problem model (`RcpspProblem` of the discrete-optimization
library, restricted to the fields the notebooks' single-mode core reads):
task list, distinguished source and sink, per-task duration
(`mode_details[k][1]["duration"]`), the successor dictionary, the resource
list, the per-time-step capacity array of each resource
(`get_resource_availability_array`), per-task resource demand
(`mode_details[k][1].get(r, 0)`) and the horizon. -/
structure RcpspProblem where
  tasks_list : List ℕ
  source_task : ℕ
  sink_task : ℕ
  duration : ℕ → ℕ
  successors : List (ℕ × List ℕ)
  resources_list : List ℕ
  capacity : ℕ → ℕ → ℕ
  demand : ℕ → ℕ → ℕ
  horizon : ℕ

/-- A schedule: association list task ↦ (start time, end time). -/
abbrev Sched := List (ℕ × ℕ × ℕ)

/-- Dictionary lookup on an association list keyed by naturals
(Python `d[k]` / `d.get(k)` semantics: first matching key wins). -/
def alookup {α : Type} (l : List (ℕ × α)) (k : ℕ) : Option α :=
  (l.find? fun p => decide (p.1 = k)).map Prod.snd

/-- Start time recorded for a task in a schedule (`schedule[t]["start_time"]`),
0 when the task has no entry. -/
def startOf (s : Sched) (t : ℕ) : ℕ :=
  ((alookup s t).map Prod.fst).getD 0

/-- End time recorded for a task in a schedule (`schedule[t]["end_time"]`),
0 when the task has no entry. -/
def endOf (s : Sched) (t : ℕ) : ℕ :=
  ((alookup s t).map Prod.snd).getD 0

/-- Makespan of a schedule: the end time of the sink task
(`schedule[problem.sink_task]["end_time"]`). -/
def makespanOf (P : RcpspProblem) (s : Sched) : ℕ :=
  endOf s P.sink_task

/-- Helper `get_successors_of_task` of Notebook 3:
`rcpsp_problem.successors.get(task_name, [])`. -/
def get_successors_of_task (P : RcpspProblem) (task_name : ℕ) : List ℕ :=
  (alookup P.successors task_name).getD []

/-- The predecessor mapping `sgs_algorithm` derives when called with
`predecessors = None`: invert the successor dictionary, i.e. `k` is a
predecessor of `s` exactly when the dictionary has an entry for `k`
whose successor list contains `s`. -/
def predsOf (P : RcpspProblem) (s : ℕ) : List ℕ :=
  (P.successors.filter fun kv => decide (s ∈ kv.2)).map Prod.fst

/-- Eligibility of a task in a round of SGS (proposition form): not yet
completed, and every predecessor already completed. -/
def EligibleP (P : RcpspProblem) (completed : List ℕ) (t : ℕ) : Prop :=
  t ∉ completed ∧ ∀ p ∈ predsOf P t, p ∈ completed

/-- Eligibility of a task in a round of SGS (boolean form used by the scan). -/
def eligibleB (P : RcpspProblem) (completed : List ℕ) (t : ℕ) : Bool :=
  decide (t ∉ completed) && (predsOf P t).all fun p => decide (p ∈ completed)

/-- Selection step of a round (spec.md §4.3 step a): the first task of the
permutation that is not completed and whose predecessors are all completed. -/
def selectTask (P : RcpspProblem) (completed : List ℕ) (perm : List ℕ) : Option ℕ :=
  perm.find? (eligibleB P completed)

/-- Precedence floor of a task (spec.md §4.3 step b): the maximum end time
over its predecessors, 0 when it has none. -/
def floorOf (P : RcpspProblem) (sched : Sched) (j : ℕ) : ℕ :=
  (predsOf P j).foldl (fun m p => max m (endOf sched p)) 0

/-- Feasibility of starting task `j` at time `t` (boolean form): for every
resource demanded by `j` and every step of the window `[t, t + duration j)`,
the step is before the horizon and the remaining capacity covers the demand. -/
def windowOk (P : RcpspProblem) (avail : ℕ → ℕ → ℕ) (j t : ℕ) : Bool :=
  P.resources_list.all fun r =>
    decide (P.demand j r = 0) ||
      (List.range (P.duration j)).all fun d =>
        decide (t + d < P.horizon) && decide (P.demand j r ≤ avail r (t + d))

/-- Feasibility of starting task `j` at time `t` (proposition form). -/
def WindowFeasible (P : RcpspProblem) (avail : ℕ → ℕ → ℕ) (j t : ℕ) : Prop :=
  ∀ r ∈ P.resources_list, 0 < P.demand j r →
    ∀ u, t ≤ u → u < t + P.duration j → u < P.horizon ∧ P.demand j r ≤ avail r u

/-- Resource search of a round (spec.md §4.3 step c): forward scan from the
precedence floor for the first feasible start time; `none` models the scan
exceeding the horizon without finding a feasible window. -/
def findStart (P : RcpspProblem) (avail : ℕ → ℕ → ℕ) (j : ℕ) : ℕ → ℕ → Option ℕ
  | _, 0 => none
  | t, fuel + 1 => if windowOk P avail j t then some t else findStart P avail j (t + 1) fuel

/-- Commit step on the remaining-capacity arrays (spec.md §4.3 step d):
decrement every resource by the task's demand over exactly the committed
window `[t, t + duration j)`. -/
def decAvail (P : RcpspProblem) (j t : ℕ) (avail : ℕ → ℕ → ℕ) : ℕ → ℕ → ℕ :=
  fun r u => if t ≤ u ∧ u < t + P.duration j then avail r u - P.demand j r else avail r u

/-- Errors of the scheduling core (spec.md §7): `unschedulableTaskError`
when a round's resource search exceeds the horizon, `noEligibleTask` when
the eligibility scan finds no task (only possible when the precedence data
violates the DAG invariant). -/
inductive SgsError where
  | unschedulableTaskError
  | noEligibleTask
deriving DecidableEq

/-- Mutable state of an SGS run: the partial schedule, the completed set,
and the remaining-capacity arrays. -/
structure SgsState where
  sched : Sched
  completed : List ℕ
  avail : ℕ → ℕ → ℕ

/-- One round of the SGS main loop (spec.md §4.3 steps a-d): select the first
eligible task of the permutation, search the first feasible start time at or
after its precedence floor, and commit it. -/
def scheduleRound (P : RcpspProblem) (perm : List ℕ) (st : SgsState) :
    Except SgsError SgsState :=
  match selectTask P st.completed perm with
  | none => Except.error SgsError.noEligibleTask
  | some j =>
    match findStart P st.avail j (floorOf P st.sched j) (P.horizon + 1) with
    | none => Except.error SgsError.unschedulableTaskError
    | some t =>
      Except.ok ⟨(j, t, t + P.duration j) :: st.sched,
                 j :: st.completed,
                 decAvail P j t st.avail⟩

/-- Main loop of SGS: round after round while fewer tasks are completed than
the problem has (`while len(completed_tasks) < rcpsp_problem.n_jobs`).  The
fuel argument bounds the rounds; `sgs_algorithm` passes enough fuel that it
never runs out before the loop condition turns false. -/
def sgsLoop (P : RcpspProblem) (perm : List ℕ) : ℕ → SgsState → Except SgsError Sched
  | 0, st => Except.ok st.sched
  | fuel + 1, st =>
    if st.completed.length < P.tasks_list.length then
      match scheduleRound P perm st with
      | Except.error e => Except.error e
      | Except.ok st' => sgsLoop P perm fuel st'
    else Except.ok st.sched

/-- Modelled from the spec: `sgs_algorithm` (spec.md §4.3 `buildSchedule`).
The repository only ships the exercise stub of this function (the correction
file `correction/nb1_correction.py` is not distributed); the initialisation
(schedule and completed set holding the source at `(0, 0)`, remaining
capacities copied from the declared capacity arrays) is taken from the stub,
and the loop body follows spec.md §4.3 steps a-d. -/
def sgs_algorithm (P : RcpspProblem) (perm : List ℕ) : Except SgsError Sched :=
  sgsLoop P perm P.tasks_list.length
    ⟨[(P.source_task, 0, 0)], [P.source_task], fun r u => P.capacity r u⟩

/-- Summed demand on resource `r` at time step `u` of the tasks active at `u`
in a schedule. -/
def usage (P : RcpspProblem) (s : Sched) (r u : ℕ) : ℕ :=
  (s.map fun e => if e.2.1 ≤ u ∧ u < e.2.2 then P.demand e.1 r else 0).sum

/-- Modelled from the spec: the `satisfy` validator of the external library
(spec.md §6): re-checks every precedence constraint (each task starts no
earlier than the end of each of its predecessors) and every resource-capacity
constraint (at every time step before the horizon the summed demand of the
active tasks does not exceed the resource's capacity). -/
def satisfyBool (P : RcpspProblem) (s : Sched) : Bool :=
  (P.tasks_list.all fun j =>
      (predsOf P j).all fun i => decide (endOf s i ≤ startOf s j)) &&
  (P.resources_list.all fun r =>
      (List.range P.horizon).all fun u => decide (usage P s r u ≤ P.capacity r u))

/-- Inner loop of `greedy_local_search`: run SGS on the next permutation of
the (fixed) random sequence and replace the incumbent best schedule when the
trial's makespan is strictly smaller. -/
def glsLoop (P : RcpspProblem) (perms : ℕ → List ℕ) :
    ℕ → ℕ → ℕ × Sched → Except SgsError Sched
  | 0, _, best => Except.ok best.2
  | n + 1, i, best =>
    match sgs_algorithm P (perms i) with
    | Except.error e => Except.error e
    | Except.ok schedule =>
      let makespan := makespanOf P schedule
      glsLoop P perms n (i + 1) (if makespan < best.1 then (makespan, schedule) else best)

/-- The `greedy_local_search` of Notebook 1: run SGS on an initial random
permutation, then `n_iteration` more random permutations, keeping the
best-makespan schedule.  The random sequence produced by `random.shuffle` is
made explicit as the stream `perms` of permutations, held fixed. -/
def greedy_local_search (P : RcpspProblem) (n_iteration : ℕ) (perms : ℕ → List ℕ) :
    Except SgsError Sched :=
  match sgs_algorithm P (perms 0) with
  | Except.error e => Except.error e
  | Except.ok schedule => glsLoop P perms n_iteration 1 (makespanOf P schedule, schedule)

/-- Longest-path DP value of a node: maximum, over paths of the precedence
DAG ending at the node, of the summed edge weights (the semantics of
`nx.dag_longest_path` on a graph whose nodes are processed in topological
order). -/
def lpDP (P : RcpspProblem) (w : ℕ → ℕ → ℕ) (order : List ℕ) : List (ℕ × ℕ) :=
  order.foldl
    (fun acc j =>
      (j, (predsOf P j).foldl (fun m i => max m ((alookup acc i).getD 0 + w i j)) 0) :: acc)
    []

/-- Edge weights of the critical-path cell of Notebook 1: the (single-mode)
duration of the edge's head, except that every edge into the sink task is
forced to weight 1 (`if edge[1] == rcpsp_problem.sink_task: ... = 1`). -/
def wEdgeNotebook (P : RcpspProblem) (_i j : ℕ) : ℕ :=
  if j = P.sink_task then 1 else P.duration j

/-- Duration of the critical path as the Notebook 1 cell computes it: the
weight of the longest path of the DAG under `wEdgeNotebook`
(`duration = sum(graph_nx[n[0]][n[1]]["min_duration"] for n in edges)`). -/
def criticalPathDurationCode (P : RcpspProblem) (order : List ℕ) : ℕ :=
  (lpDP P (wEdgeNotebook P) order).foldl (fun m p => max m p.2) 0

/-- Modelled from the spec: the forward pass of the CPM analyzer
(spec.md §4.2, implemented by the external `discrete_optimization` solver the
notebook calls): in topological order, `ESD[j] = max over predecessors i of
EFD[i]` and `EFD[j] = ESD[j] + duration[j]`. -/
def cpmForward (P : RcpspProblem) (order : List ℕ) : List (ℕ × ℕ) :=
  order.foldl
    (fun acc j =>
      (j, (predsOf P j).foldl (fun m i => max m ((alookup acc i).getD 0)) 0 + P.duration j) :: acc)
    []

/-- Earliest finish date of a task from the CPM forward pass. -/
def efdOf (P : RcpspProblem) (order : List ℕ) (j : ℕ) : ℕ :=
  (alookup (cpmForward P order) j).getD 0

/-- Concrete instance for the scenario of spec.md §8: tasks `0` (source),
`1` (B, duration 3), `2` (C, duration 1), `3` (sink); no precedence between
B and C; one resource `0` of constant capacity 1 that B and C each fully
occupy while running. -/
def exP : RcpspProblem where
  tasks_list := [0, 1, 2, 3]
  source_task := 0
  sink_task := 3
  duration := fun t => if t = 1 then 3 else if t = 2 then 1 else 0
  successors := [(0, [1, 2]), (1, [3]), (2, [3])]
  resources_list := [0]
  capacity := fun _ _ => 1
  demand := fun t _ => if t = 1 ∨ t = 2 then 1 else 0
  horizon := 10

/-- The schedule SGS builds on `exP` with permutation `[0, 1, 2, 3]`. -/
def exSched : Sched := [(3, 4, 4), (2, 3, 4), (1, 0, 3), (0, 0, 0)]

/-- Remaining-capacity arrays of `exP` before any commitment. -/
def availInit : ℕ → ℕ → ℕ := fun r u => exP.capacity r u

/-- Concrete instance whose only real task cannot be placed although its
demand never exceeds the resource's maximum capacity: task `1` lasts 2 steps
and needs 1 unit of resource `0`, whose capacity alternates 1, 0, 1, 0 —
no window of two consecutive steps is feasible. -/
def exBad : RcpspProblem where
  tasks_list := [0, 1, 2]
  source_task := 0
  sink_task := 2
  duration := fun t => if t = 1 then 2 else 0
  successors := [(0, [1]), (1, [2])]
  resources_list := [0]
  capacity := fun _ u => if u % 2 = 0 then 1 else 0
  demand := fun t _ => if t = 1 then 1 else 0
  horizon := 4

/-- Concrete instance for the critical-path cell: source `0` → task `1`
(duration 2) → sink `2`, no resources. -/
def exCp : RcpspProblem where
  tasks_list := [0, 1, 2]
  source_task := 0
  sink_task := 2
  duration := fun t => if t = 1 then 2 else 0
  successors := [(0, [1]), (1, [2])]
  resources_list := []
  capacity := fun _ _ => 0
  demand := fun _ _ => 0
  horizon := 5

/-- A constant stream of permutations for witnesses of the search driver. -/
def permsConst : ℕ → List ℕ := fun _ => [0, 1, 2, 3]

/-- The constant stream of trial schedules the constant stream of
permutations produces on `exP`. -/
def schedConst : ℕ → Sched := fun _ => exSched

/-! Helper lemmas about lookups, folds and the round primitives. -/

theorem alookup_cons_self {α : Type} (k : ℕ) (v : α) (l : List (ℕ × α)) :
    alookup ((k, v) :: l) k = some v := by
  simp [alookup, List.find?_cons_of_pos]

theorem alookup_cons_ne {α : Type} {k k' : ℕ} (v : α) (l : List (ℕ × α)) (h : k ≠ k') :
    alookup ((k, v) :: l) k' = alookup l k' := by
  simp [alookup, List.find?_cons_of_neg, h]

theorem alookup_eq_none_of_not_mem_keys {α : Type} :
    ∀ (l : List (ℕ × α)) (k : ℕ), k ∉ l.map Prod.fst → alookup l k = none
  | [], _, _ => rfl
  | (k', v) :: l, k, h => by
    rw [List.map_cons] at h
    have hne : k' ≠ k := fun he => h (he ▸ List.mem_cons_self k' (l.map Prod.fst))
    rw [alookup_cons_ne v l hne]
    exact alookup_eq_none_of_not_mem_keys l k (fun hm => h (List.mem_cons_of_mem _ hm))

theorem alookup_of_mem_of_nodup {α : Type} :
    ∀ (l : List (ℕ × α)) (k : ℕ) (v : α), (l.map Prod.fst).Nodup → (k, v) ∈ l →
      alookup l k = some v
  | [], _, _, _, hm => by cases hm
  | (k', v') :: l, k, v, hn, hm => by
    rw [List.map_cons, List.nodup_cons] at hn
    rcases List.mem_cons.mp hm with he | hm'
    · injection he with h1 h2
      subst h1; subst h2
      exact alookup_cons_self k v l
    · have hkey : k ∈ l.map Prod.fst := List.mem_map.mpr ⟨(k, v), hm', rfl⟩
      have hne : k' ≠ k := fun he => hn.1 (he ▸ hkey)
      rw [alookup_cons_ne v' l hne]
      exact alookup_of_mem_of_nodup l k v hn.2 hm'

theorem endOf_cons_ne {j i : ℕ} (s e : ℕ) (sc : Sched) (h : j ≠ i) :
    endOf ((j, s, e) :: sc) i = endOf sc i := by
  simp [endOf, alookup_cons_ne (s, e) sc h]

theorem startOf_cons_ne {j i : ℕ} (s e : ℕ) (sc : Sched) (h : j ≠ i) :
    startOf ((j, s, e) :: sc) i = startOf sc i := by
  simp [startOf, alookup_cons_ne (s, e) sc h]

theorem le_foldl_max (f : ℕ → ℕ) :
    ∀ (l : List ℕ) (a : ℕ), a ≤ l.foldl (fun m x => max m (f x)) a
  | [], a => le_refl a
  | x :: l, a =>
    le_trans (le_max_left a (f x)) (le_foldl_max f l (max a (f x)))

theorem foldl_max_le_of_mem (f : ℕ → ℕ) :
    ∀ (l : List ℕ) (a x : ℕ), x ∈ l → f x ≤ l.foldl (fun m y => max m (f y)) a
  | [], _, x, hx => absurd hx (List.not_mem_nil x)
  | y :: l, a, x, hx => by
    rcases List.mem_cons.mp hx with he | hm
    · subst he
      exact le_trans (le_max_right a (f x)) (le_foldl_max f l (max a (f x)))
    · exact foldl_max_le_of_mem f l (max a (f y)) x hm

theorem findStart_spec (P : RcpspProblem) (avail : ℕ → ℕ → ℕ) (j : ℕ) :
    ∀ (fuel t t' : ℕ), findStart P avail j t fuel = some t' →
      t ≤ t' ∧ windowOk P avail j t' = true ∧
        ∀ u, t ≤ u → u < t' → windowOk P avail j u = false
  | 0, t, t', h => by simp [findStart] at h
  | fuel + 1, t, t', h => by
    by_cases hw : windowOk P avail j t = true
    · simp [findStart, hw] at h
      subst h
      exact ⟨le_refl t, hw, fun u h1 h2 => absurd (lt_of_le_of_lt h1 h2) (lt_irrefl t)⟩
    · simp [findStart, hw] at h
      obtain ⟨h1, h2, h3⟩ := findStart_spec P avail j fuel (t + 1) t' h
      refine ⟨le_trans (Nat.le_succ t) h1, h2, fun u hu1 hu2 => ?_⟩
      rcases Nat.eq_or_lt_of_le hu1 with he | hlt
      · subst he
        exact Bool.eq_false_iff.mpr hw
      · exact h3 u hlt hu2

theorem windowOk_iff (P : RcpspProblem) (avail : ℕ → ℕ → ℕ) (j t : ℕ) :
    windowOk P avail j t = true ↔ WindowFeasible P avail j t := by
  constructor
  · intro h r hr hd u hu1 hu2
    rw [windowOk, List.all_eq_true] at h
    have hr' := h r hr
    rw [Bool.or_eq_true, decide_eq_true_eq] at hr'
    rcases hr' with h0 | hall
    · omega
    · rw [List.all_eq_true] at hall
      have := hall (u - t) (List.mem_range.mpr (by omega))
      rw [Bool.and_eq_true, decide_eq_true_eq, decide_eq_true_eq] at this
      have he : t + (u - t) = u := by omega
      rw [he] at this
      exact this
  · intro h
    rw [windowOk, List.all_eq_true]
    intro r hr
    rw [Bool.or_eq_true, decide_eq_true_eq]
    by_cases h0 : P.demand j r = 0
    · exact Or.inl h0
    · refine Or.inr ?_
      rw [List.all_eq_true]
      intro d hd
      rw [Bool.and_eq_true, decide_eq_true_eq, decide_eq_true_eq]
      exact h r hr (Nat.pos_of_ne_zero h0) (t + d) (Nat.le_add_right t d)
        (by have := List.mem_range.mp hd; omega)

theorem eligibleB_iff (P : RcpspProblem) (completed : List ℕ) (t : ℕ) :
    eligibleB P completed t = true ↔ EligibleP P completed t := by
  simp [eligibleB, EligibleP, List.all_eq_true]

theorem find?_first {p : ℕ → Bool} :
    ∀ (l : List ℕ) (j : ℕ), l.find? p = some j ↔
      ∃ l₁ l₂, l = l₁ ++ j :: l₂ ∧ p j = true ∧ ∀ k ∈ l₁, p k = false
  | [], j => by
    simp [List.find?]
  | a :: l, j => by
    constructor
    · intro h
      by_cases hp : p a = true
      · rw [List.find?_cons_of_pos _ hp] at h
        cases h
        exact ⟨[], l, rfl, hp, by simp⟩
      · rw [List.find?_cons_of_neg _ (by simpa using hp)] at h
        obtain ⟨l₁, l₂, he, hj, hall⟩ := (find?_first l j).mp h
        refine ⟨a :: l₁, l₂, by simp [he], hj, ?_⟩
        intro k hk
        rcases List.mem_cons.mp hk with hk | hk
        · subst hk; exact Bool.eq_false_iff.mpr hp
        · exact hall k hk
    · rintro ⟨l₁, l₂, he, hj, hall⟩
      cases l₁ with
      | nil =>
        simp at he
        obtain ⟨he1, he2⟩ := he
        subst he1; subst he2
        exact List.find?_cons_of_pos _ hj
      | cons b l₁' =>
        simp at he
        obtain ⟨he1, he2⟩ := he
        subst he1
        have hb : p a = false := hall a (by simp)
        rw [List.find?_cons_of_neg _ (by simp [hb])]
        exact (find?_first l j).mpr ⟨l₁', l₂, he2, hj, fun k hk => hall k (by simp [hk])⟩

theorem usage_cons (P : RcpspProblem) (e : ℕ × ℕ × ℕ) (s : Sched) (r u : ℕ) :
    usage P (e :: s) r u =
      (if e.2.1 ≤ u ∧ u < e.2.2 then P.demand e.1 r else 0) + usage P s r u := by
  simp [usage]

/-- Invariant of the SGS main loop: schedule keys coincide with the completed
set (no duplicates, all known tasks), committed entries respect durations and
predecessors, and the remaining-capacity arrays equal capacity minus the
summed demand of the committed tasks, which never exceeds capacity. -/
structure SgsInv (P : RcpspProblem) (st : SgsState) : Prop where
  keys : st.sched.map Prod.fst = st.completed
  nodup : st.completed.Nodup
  subset : ∀ t ∈ st.completed, t ∈ P.tasks_list
  ends : ∀ e ∈ st.sched, e.2.2 = e.2.1 + P.duration e.1
  prec : ∀ e ∈ st.sched, ∀ i ∈ predsOf P e.1, i ∈ st.completed ∧ endOf st.sched i ≤ e.2.1
  cap : ∀ r ∈ P.resources_list, ∀ u, usage P st.sched r u ≤ P.capacity r u ∧
          st.avail r u = P.capacity r u - usage P st.sched r u

theorem length_le_of_nodup_subset {l₁ l₂ : List ℕ} (h₁ : l₁.Nodup)
    (hs : ∀ x ∈ l₁, x ∈ l₂) : l₁.length ≤ l₂.length := by
  have hsub : l₁.toFinset ⊆ l₂.toFinset := fun x hx =>
    List.mem_toFinset.mpr (hs x (List.mem_toFinset.mp hx))
  have hc1 : l₁.toFinset.card = l₁.length := List.toFinset_card_of_nodup h₁
  have hc2 : l₂.toFinset.card ≤ l₂.length := l₂.toFinset_card_le
  have := Finset.card_le_card hsub
  omega

theorem mem_of_subset_of_length_le {l₁ l₂ : List ℕ} (h₁ : l₁.Nodup) (h₂ : l₂.Nodup)
    (hs : ∀ x ∈ l₁, x ∈ l₂) (hl : l₂.length ≤ l₁.length) : ∀ x ∈ l₂, x ∈ l₁ := by
  have hsub : l₁.toFinset ⊆ l₂.toFinset := fun x hx =>
    List.mem_toFinset.mpr (hs x (List.mem_toFinset.mp hx))
  have hc1 : l₁.toFinset.card = l₁.length := List.toFinset_card_of_nodup h₁
  have hc2 : l₂.toFinset.card = l₂.length := List.toFinset_card_of_nodup h₂
  have heq : l₁.toFinset = l₂.toFinset :=
    Finset.eq_of_subset_of_card_le hsub (by omega)
  intro x hx
  exact List.mem_toFinset.mp (heq ▸ List.mem_toFinset.mpr hx)

theorem sgsInv_init (P : RcpspProblem)
    (hsrc : P.source_task ∈ P.tasks_list)
    (hdur : P.duration P.source_task = 0)
    (hpred : predsOf P P.source_task = []) :
    SgsInv P ⟨[(P.source_task, 0, 0)], [P.source_task], fun r u => P.capacity r u⟩ := by
  refine ⟨rfl, List.nodup_singleton _, ?_, ?_, ?_, ?_⟩
  · intro t ht
    rw [List.mem_singleton] at ht
    exact ht ▸ hsrc
  · intro e he
    rw [List.mem_singleton] at he
    subst he
    simp [hdur]
  · intro e he i hi
    rw [List.mem_singleton] at he
    subst he
    rw [show ((P.source_task, 0, 0) : ℕ × ℕ × ℕ).1 = P.source_task from rfl, hpred] at hi
    cases hi
  · intro r _ u
    simp [usage]

theorem scheduleRound_inv (P : RcpspProblem) (perm : List ℕ) (st st' : SgsState)
    (hperm : ∀ x ∈ perm, x ∈ P.tasks_list)
    (h : scheduleRound P perm st = Except.ok st') (hinv : SgsInv P st) :
    SgsInv P st' ∧ st'.completed.length = st.completed.length + 1 := by
  unfold scheduleRound at h
  cases hsel : selectTask P st.completed perm with
  | none => rw [hsel] at h; cases h
  | some j =>
    rw [hsel] at h
    dsimp only at h
    cases hfs : findStart P st.avail j (floorOf P st.sched j) (P.horizon + 1) with
    | none => rw [hfs] at h; cases h
    | some t =>
      rw [hfs] at h
      injection h with h'
      subst h'
      simp only [selectTask] at hsel
      have helig : eligibleB P st.completed j = true := List.find?_some hsel
      obtain ⟨hnotc, hpredc⟩ := (eligibleB_iff P st.completed j).mp helig
      have hjtasks : j ∈ P.tasks_list := hperm j (List.mem_of_find?_eq_some hsel)
      obtain ⟨hge, hwok, _⟩ :=
        findStart_spec P st.avail j (P.horizon + 1) (floorOf P st.sched j) t hfs
      have hwf : WindowFeasible P st.avail j t := (windowOk_iff P st.avail j t).mp hwok
      have hnewend : ∀ i : ℕ, i ∈ st.completed →
          endOf ((j, t, t + P.duration j) :: st.sched) i = endOf st.sched i := by
        intro i hic
        exact endOf_cons_ne t (t + P.duration j) st.sched (fun he => hnotc (he ▸ hic))
      refine ⟨⟨?_, ?_, ?_, ?_, ?_, ?_⟩, rfl⟩
      · rw [List.map_cons, hinv.keys]
      · exact List.nodup_cons.mpr ⟨hnotc, hinv.nodup⟩
      · intro x hx
        rcases List.mem_cons.mp hx with he | hm
        · exact he ▸ hjtasks
        · exact hinv.subset x hm
      · intro e he
        rcases List.mem_cons.mp he with he' | hm
        · subst he'; rfl
        · exact hinv.ends e hm
      · intro e he i hi
        rcases List.mem_cons.mp he with he' | hm
        · subst he'
          have hic : i ∈ st.completed := hpredc i hi
          refine ⟨List.mem_cons_of_mem j hic, ?_⟩
          rw [hnewend i hic]
          calc endOf st.sched i
              ≤ floorOf P st.sched j :=
                foldl_max_le_of_mem (endOf st.sched) (predsOf P j) 0 i hi
            _ ≤ t := hge
        · obtain ⟨hic, hend⟩ := hinv.prec e hm i hi
          exact ⟨List.mem_cons_of_mem j hic, (hnewend i hic) ▸ hend⟩
      · intro r hr u
        obtain ⟨hle, heq⟩ := hinv.cap r hr u
        rw [usage_cons]
        show (if t ≤ u ∧ u < t + P.duration j then P.demand j r else 0) +
              usage P st.sched r u ≤ P.capacity r u ∧
            decAvail P j t st.avail r u = P.capacity r u -
              ((if t ≤ u ∧ u < t + P.duration j then P.demand j r else 0) +
                usage P st.sched r u)
        rw [decAvail]
        by_cases hwin : t ≤ u ∧ u < t + P.duration j
        · rw [if_pos hwin, if_pos hwin]
          by_cases hd : P.demand j r = 0
          · rw [hd]; omega
          · obtain ⟨_, hdl⟩ := hwf r hr (Nat.pos_of_ne_zero hd) u hwin.1 hwin.2
            omega
        · rw [if_neg hwin, if_neg hwin]
          omega

theorem satisfy_of_inv (P : RcpspProblem) (st : SgsState) (hT : P.tasks_list.Nodup)
    (hinv : SgsInv P st) (hlen : P.tasks_list.length ≤ st.completed.length) :
    satisfyBool P st.sched = true := by
  have hcover : ∀ x ∈ P.tasks_list, x ∈ st.completed :=
    mem_of_subset_of_length_le hinv.nodup hT hinv.subset hlen
  rw [satisfyBool, Bool.and_eq_true]
  constructor
  · rw [List.all_eq_true]
    intro j hj
    rw [List.all_eq_true]
    intro i hi
    rw [decide_eq_true_eq]
    have hjc : j ∈ st.completed := hcover j hj
    have hkey : j ∈ st.sched.map Prod.fst := hinv.keys ▸ hjc
    obtain ⟨e, he, hfst⟩ := List.mem_map.mp hkey
    obtain ⟨hic, hend⟩ := hinv.prec e he i (hfst ▸ hi)
    have hnk : (st.sched.map Prod.fst).Nodup := hinv.keys ▸ hinv.nodup
    have hmem : (j, e.2) ∈ st.sched := by
      have : e = (j, e.2) := by
        obtain ⟨e1, e2⟩ := e
        simp only at hfst
        rw [hfst]
      exact this ▸ he
    have hlookup : alookup st.sched j = some e.2 :=
      alookup_of_mem_of_nodup st.sched j e.2 hnk hmem
    rw [startOf, hlookup]
    simpa using hend
  · rw [List.all_eq_true]
    intro r hr
    rw [List.all_eq_true]
    intro u _
    rw [decide_eq_true_eq]
    exact (hinv.cap r hr u).1

theorem sgsLoop_sound (P : RcpspProblem) (perm : List ℕ) (hT : P.tasks_list.Nodup)
    (hperm : ∀ x ∈ perm, x ∈ P.tasks_list) :
    ∀ (fuel : ℕ) (st : SgsState) (s : Sched), SgsInv P st →
      P.tasks_list.length + 1 ≤ st.completed.length + fuel →
      sgsLoop P perm fuel st = Except.ok s → satisfyBool P s = true
  | 0, st, _, hinv, hcount, _ => by
    have hle : st.completed.length ≤ P.tasks_list.length :=
      length_le_of_nodup_subset hinv.nodup hinv.subset
    omega
  | fuel + 1, st, s, hinv, hcount, h => by
    simp only [sgsLoop] at h
    by_cases hc : st.completed.length < P.tasks_list.length
    · rw [if_pos hc] at h
      cases hr : scheduleRound P perm st with
      | error e => rw [hr] at h; cases h
      | ok st' =>
        rw [hr] at h
        obtain ⟨hinv', hlen'⟩ := scheduleRound_inv P perm st st' hperm hr hinv
        exact sgsLoop_sound P perm hT hperm fuel st' s hinv' (by omega) h
    · rw [if_neg hc] at h
      injection h with h'
      subst h'
      exact satisfy_of_inv P st hT hinv (by omega)

/-- Behaviour of the inner loop of `greedy_local_search` when every trial of
the random sequence succeeds: it returns a schedule no worse than the
incumbent and than every trial of its window, and it deviates from the
incumbent only for a trial strictly better than the incumbent and strictly
better than every earlier trial of the window. -/
theorem glsLoop_spec (P : RcpspProblem) (perms : ℕ → List ℕ) (σ : ℕ → Sched)
    (h : ∀ j, sgs_algorithm P (perms j) = Except.ok (σ j)) :
    ∀ (n i : ℕ) (bs : Sched),
      ∃ s, glsLoop P perms n i (makespanOf P bs, bs) = Except.ok s ∧
        makespanOf P s ≤ makespanOf P bs ∧
        (∀ j, i ≤ j → j < i + n → makespanOf P s ≤ makespanOf P (σ j)) ∧
        (s = bs ∨ ∃ j0, i ≤ j0 ∧ j0 < i + n ∧ s = σ j0 ∧
          makespanOf P (σ j0) < makespanOf P bs ∧
          ∀ j, i ≤ j → j < j0 → makespanOf P (σ j0) < makespanOf P (σ j))
  | 0, i, bs => by
    refine ⟨bs, rfl, le_refl _, ?_, Or.inl rfl⟩
    intro j h1 h2
    omega
  | n + 1, i, bs => by
    simp only [glsLoop, h i]
    by_cases hlt : makespanOf P (σ i) < makespanOf P bs
    · rw [if_pos hlt]
      obtain ⟨s, hrun, hbest, hwin, hdev⟩ := glsLoop_spec P perms σ h n (i + 1) (σ i)
      refine ⟨s, hrun, le_trans hbest (le_of_lt hlt), ?_, ?_⟩
      · intro j h1 h2
        rcases Nat.eq_or_lt_of_le h1 with he | hlt'
        · exact he ▸ hbest
        · exact hwin j hlt' (by omega)
      · rcases hdev with he | ⟨j0, hj1, hj2, hj3, hj4, hj5⟩
        · exact Or.inr ⟨i, le_refl i, by omega, he, hlt, fun j ha hb => by omega⟩
        · refine Or.inr ⟨j0, by omega, by omega, hj3, lt_trans hj4 hlt, ?_⟩
          intro j ha hb
          rcases Nat.eq_or_lt_of_le ha with he' | hlt'
          · exact he' ▸ hj4
          · exact hj5 j hlt' hb
    · rw [if_neg hlt]
      obtain ⟨s, hrun, hbest, hwin, hdev⟩ := glsLoop_spec P perms σ h n (i + 1) bs
      refine ⟨s, hrun, hbest, ?_, ?_⟩
      · intro j h1 h2
        rcases Nat.eq_or_lt_of_le h1 with he | hlt'
        · subst he; omega
        · exact hwin j hlt' (by omega)
      · rcases hdev with he | ⟨j0, hj1, hj2, hj3, hj4, hj5⟩
        · exact Or.inl he
        · refine Or.inr ⟨j0, by omega, by omega, hj3, hj4, ?_⟩
          intro j ha hb
          rcases Nat.eq_or_lt_of_le ha with he' | hlt'
          · subst he'; omega
          · exact hj5 j hlt' hb

/-- Behaviour of `greedy_local_search` when every trial of the random
sequence succeeds: the result is the trial of smallest makespan among the
initial one and the `n` iterations, ties broken towards the earliest trial
(the incumbent is replaced only on strict improvement). -/
theorem greedy_spec (P : RcpspProblem) (perms : ℕ → List ℕ) (σ : ℕ → Sched) (n : ℕ)
    (h : ∀ j, sgs_algorithm P (perms j) = Except.ok (σ j)) :
    ∃ i0, i0 ≤ n ∧ greedy_local_search P n perms = Except.ok (σ i0) ∧
      (∀ j, j ≤ n → makespanOf P (σ i0) ≤ makespanOf P (σ j)) ∧
      (∀ j, j < i0 → makespanOf P (σ i0) < makespanOf P (σ j)) := by
  obtain ⟨s, hrun, hbest, hwin, hdev⟩ := glsLoop_spec P perms σ h n 1 (σ 0)
  have hrun' : greedy_local_search P n perms = Except.ok s := by
    simp only [greedy_local_search, h 0]
    exact hrun
  rcases hdev with he | ⟨j0, hj1, hj2, hj3, hj4, hj5⟩
  · subst he
    refine ⟨0, Nat.zero_le n, hrun', ?_, ?_⟩
    · intro j hj
      rcases Nat.eq_zero_or_pos j with he' | hpos
      · subst he'; exact le_refl _
      · exact hwin j hpos (by omega)
    · intro j hj
      omega
  · subst hj3
    refine ⟨j0, by omega, hrun', ?_, ?_⟩
    · intro j hj
      rcases Nat.eq_zero_or_pos j with he' | hpos
      · subst he'; exact le_of_lt hj4
      · exact hwin j hpos (by omega)
    · intro j hj
      rcases Nat.eq_zero_or_pos j with he' | hpos
      · subst he'; exact hj4
      · exact hj5 j hpos hj

theorem mem_of_alookup {α : Type} (l : List (ℕ × α)) (k : ℕ) (v : α)
    (h : alookup l k = some v) : (k, v) ∈ l := by
  rw [alookup] at h
  cases hf : l.find? (fun p => decide (p.1 = k)) with
  | none => rw [hf] at h; cases h
  | some p =>
    rw [hf] at h
    have hp : p.1 = k := by
      have := List.find?_some hf
      rwa [decide_eq_true_eq] at this
    have hmem := List.mem_of_find?_eq_some hf
    have hv : p.2 = v := by
      simpa using h
    obtain ⟨p1, p2⟩ := p
    simp only at hp hv
    subst hp; subst hv
    exact hmem

/-- Claim C1: for every problem whose task list has no duplicates, whose
source task is a known task with zero duration and no predecessors, and for
every permutation drawn from the task list, any schedule `sgs_algorithm`
returns satisfies every precedence constraint and every resource-capacity
constraint: `satisfy(P, buildSchedule(P, π))` is true. -/
theorem sgs_algorithm_satisfies (P : RcpspProblem) (perm : List ℕ) (s : Sched)
    (hT : P.tasks_list.Nodup)
    (hsrc : P.source_task ∈ P.tasks_list)
    (hdur : P.duration P.source_task = 0)
    (hpred : predsOf P P.source_task = [])
    (hperm : ∀ j ∈ perm, j ∈ P.tasks_list)
    (h : sgs_algorithm P perm = Except.ok s) :
    satisfyBool P s = true := by
  refine sgsLoop_sound P perm hT hperm P.tasks_list.length
    ⟨[(P.source_task, 0, 0)], [P.source_task], fun r u => P.capacity r u⟩ s
    (sgsInv_init P hsrc hdur hpred) ?_ h
  simp only [List.length_singleton]
  omega

/-- Witness for C1: on the two-task one-resource instance the schedule SGS
builds passes the `satisfy` validator. -/
theorem sgs_algorithm_satisfies_witness : satisfyBool exP exSched = true :=
  sgs_algorithm_satisfies exP [0, 1, 2, 3] exSched (by decide) (by decide) (by decide)
    (by decide) (by decide) rfl

/-- Claim C2: the task selected in a round of the SGS main loop is exactly
the first task in permutation order that is not yet completed and whose
every predecessor is completed; of two eligible tasks, the one earlier in
the permutation is selected (the rounds of `sgsLoop` schedule precisely the
task `selectTask` returns). -/
theorem selectTask_first_eligible (P : RcpspProblem) (completed perm : List ℕ) (j : ℕ) :
    selectTask P completed perm = some j ↔
      ∃ l₁ l₂, perm = l₁ ++ j :: l₂ ∧ EligibleP P completed j ∧
        ∀ k ∈ l₁, ¬ EligibleP P completed k := by
  rw [selectTask, find?_first]
  constructor
  · rintro ⟨l₁, l₂, he, hj, hall⟩
    refine ⟨l₁, l₂, he, (eligibleB_iff P completed j).mp hj, fun k hk hek => ?_⟩
    have hf := hall k hk
    exact absurd ((eligibleB_iff P completed k).mpr hek) (by simp [hf])
  · rintro ⟨l₁, l₂, he, hj, hall⟩
    refine ⟨l₁, l₂, he, (eligibleB_iff P completed j).mpr hj, fun k hk => ?_⟩
    exact Bool.eq_false_iff.mpr (fun ht => hall k hk ((eligibleB_iff P completed k).mp ht))

/-- Claim C3: a successful resource search returns the smallest start time
at or after the precedence floor whose whole duration window fits under the
horizon and under the remaining capacities, and the commit decrements the
remaining capacities by the task's demand over exactly that window. -/
theorem findStart_first_fit (P : RcpspProblem) (avail : ℕ → ℕ → ℕ) (j fl fuel t : ℕ)
    (h : findStart P avail j fl fuel = some t) :
    fl ≤ t ∧ WindowFeasible P avail j t ∧
      (∀ u, fl ≤ u → u < t → ¬ WindowFeasible P avail j u) ∧
      (∀ r u, decAvail P j t avail r u =
        if t ≤ u ∧ u < t + P.duration j then avail r u - P.demand j r else avail r u) := by
  obtain ⟨h1, h2, h3⟩ := findStart_spec P avail j fuel fl t h
  refine ⟨h1, (windowOk_iff P avail j t).mp h2, fun u hu1 hu2 hwf => ?_, fun r u => rfl⟩
  have hfalse := h3 u hu1 hu2
  exact absurd ((windowOk_iff P avail j u).mpr hwf) (by simp [hfalse])

/-- Witness for C3: on the example instance, the search for task 1 starting
at floor 0 commits start time 0 and its conclusion holds there. -/
theorem findStart_first_fit_witness :
    (0 : ℕ) ≤ 0 ∧ WindowFeasible exP availInit 1 0 ∧
      (∀ u, 0 ≤ u → u < 0 → ¬ WindowFeasible exP availInit 1 u) ∧
      (∀ r u, decAvail exP 1 0 availInit r u =
        if 0 ≤ u ∧ u < 0 + exP.duration 1 then availInit r u - exP.demand 1 r
        else availInit r u) :=
  findStart_first_fit exP availInit 1 0 11 0 rfl

/-- Claim C4 (failing input): on the instance source `0` → task `1` of
duration 2 → sink `2`, the critical-path cell of Notebook 1 computes
duration 3 (it forces every edge into the sink to weight 1), while
`EFD[sink]` from the CPM forward pass is 2 and SGS itself schedules the
instance with makespan 2 — so the computed duration neither equals
`EFD[sink]` nor lower-bounds every SGS makespan. -/
theorem criticalPathCell_off_by_one :
    criticalPathDurationCode exCp [0, 1, 2] = 3 ∧
      efdOf exCp [0, 1, 2] exCp.sink_task = 2 ∧
      Except.map (makespanOf exCp) (sgs_algorithm exCp [0, 1, 2]) = Except.ok 2 :=
  ⟨rfl, rfl, rfl⟩

/-- Claim C5: holding the random sequence fixed and assuming every trial of
the sequence succeeds, `greedy_local_search` returns the trial schedule of
minimum makespan among the initial trial and the `n` iterations, the
incumbent being replaced only on strict improvement (the returned trial is
the earliest one attaining the minimum), and the returned makespan is
non-increasing as the iteration count grows. -/
theorem greedy_local_search_best (P : RcpspProblem) (perms : ℕ → List ℕ) (σ : ℕ → Sched)
    (n : ℕ) (h : ∀ j, sgs_algorithm P (perms j) = Except.ok (σ j)) :
    ∃ i0, i0 ≤ n ∧ greedy_local_search P n perms = Except.ok (σ i0) ∧
      (∀ j, j ≤ n → makespanOf P (σ i0) ≤ makespanOf P (σ j)) ∧
      (∀ j, j < i0 → makespanOf P (σ i0) < makespanOf P (σ j)) ∧
      (∀ m s', n ≤ m → greedy_local_search P m perms = Except.ok s' →
        makespanOf P s' ≤ makespanOf P (σ i0)) := by
  obtain ⟨i0, hi0, hrun, hmin, hfirst⟩ := greedy_spec P perms σ n h
  refine ⟨i0, hi0, hrun, hmin, hfirst, ?_⟩
  intro m s' hnm hrun'
  obtain ⟨i1, _, hrun1, hmin1, _⟩ := greedy_spec P perms σ m h
  have hs' : s' = σ i1 := Except.ok.inj (hrun'.symm.trans hrun1)
  rw [hs']
  exact hmin1 i0 (by omega)

/-- Witness for C5: with the constant permutation stream on the example
instance all trials give the same schedule and the theorem applies. -/
theorem greedy_local_search_best_witness :
    ∃ i0, i0 ≤ 2 ∧ greedy_local_search exP 2 permsConst = Except.ok (schedConst i0) ∧
      (∀ j, j ≤ 2 → makespanOf exP (schedConst i0) ≤ makespanOf exP (schedConst j)) ∧
      (∀ j, j < i0 → makespanOf exP (schedConst i0) < makespanOf exP (schedConst j)) ∧
      (∀ m s', 2 ≤ m → greedy_local_search exP m permsConst = Except.ok s' →
        makespanOf exP s' ≤ makespanOf exP (schedConst i0)) :=
  greedy_local_search_best exP permsConst schedConst 2 (fun _ => rfl)

/-- Claim C6: `sgs_algorithm` is deterministic — two calls on the same
problem and permutation return identical results; there is no randomness
inside SGS itself. -/
theorem sgs_algorithm_deterministic (P : RcpspProblem) (perm : List ℕ)
    (s₁ s₂ : Except SgsError Sched)
    (h₁ : sgs_algorithm P perm = s₁) (h₂ : sgs_algorithm P perm = s₂) : s₁ = s₂ := by
  rw [← h₁, ← h₂]

/-- Witness for C6: on the example instance a run coincides with the
schedule computed once and for all. -/
theorem sgs_algorithm_deterministic_witness :
    sgs_algorithm exP [0, 1, 2, 3] = Except.ok exSched :=
  sgs_algorithm_deterministic exP [0, 1, 2, 3] (sgs_algorithm exP [0, 1, 2, 3])
    (Except.ok exSched) rfl rfl

/-- Claim C7 (amended): a round of SGS fails with `unschedulableTaskError`
exactly when the eligibility scan selected a task whose resource search
found no feasible start before exceeding the horizon; the loop propagates
this error to the caller unchanged. -/
theorem scheduleRound_unschedulable_iff (P : RcpspProblem) (perm : List ℕ) (st : SgsState) :
    scheduleRound P perm st = Except.error SgsError.unschedulableTaskError ↔
      ∃ j, selectTask P st.completed perm = some j ∧
        findStart P st.avail j (floorOf P st.sched j) (P.horizon + 1) = none := by
  unfold scheduleRound
  cases hsel : selectTask P st.completed perm with
  | none => simp
  | some j =>
    dsimp only
    cases hfs : findStart P st.avail j (floorOf P st.sched j) (P.horizon + 1) with
    | none => simp [hfs]
    | some t => simp [hfs]

/-- Counterexample for C7: an instance in which no task's demand exceeds the
maximum capacity of the resource (demand 1, peak capacity 1) but SGS still
fails with `unschedulableTaskError`, because the capacity alternates 1, 0 and
the task lasts two consecutive steps. -/
theorem sgs_wellformed_error_counterexample :
    sgs_algorithm exBad [0, 1, 2] = Except.error SgsError.unschedulableTaskError ∧
      ∀ j ∈ exBad.tasks_list, ∀ r ∈ exBad.resources_list,
        ∃ u ∈ List.range exBad.horizon, exBad.demand j r ≤ exBad.capacity r u :=
  ⟨rfl, by decide⟩

/-- Claim C8: on the instance with tasks B (duration 3) and C (duration 1),
no precedence between them, and one resource of constant capacity 1 that
each fully occupies, SGS with B before C in the permutation schedules B at
`(0, 3)` and starts C at time 3, although no precedence orders them. -/
theorem sgs_resource_serialization :
    sgs_algorithm exP [0, 1, 2, 3] = Except.ok exSched ∧
      startOf exSched 1 = 0 ∧ endOf exSched 1 = 3 ∧ startOf exSched 2 = 3 ∧
      1 ∉ predsOf exP 2 ∧ 2 ∉ predsOf exP 1 :=
  ⟨rfl, rfl, rfl, rfl, by decide, by decide⟩

/-- Claim C9: the predecessor mapping `sgs_algorithm` derives before its
loop when called with `predecessors = None` is the exact inverse of the
successor dictionary: `k ∈ predecessors[s]` iff `s ∈ successors[k]`
(for a dictionary without duplicate keys). -/
theorem predsOf_inverse_successors (P : RcpspProblem) (k s : ℕ)
    (h : (P.successors.map Prod.fst).Nodup) :
    k ∈ predsOf P s ↔ s ∈ get_successors_of_task P k := by
  rw [predsOf]
  constructor
  · intro hk
    obtain ⟨kv, hkv, hfst⟩ := List.mem_map.mp hk
    have hmem := List.mem_of_mem_filter hkv
    have hdec := List.of_mem_filter hkv
    rw [decide_eq_true_eq] at hdec
    have hkv' : (k, kv.2) ∈ P.successors := by
      obtain ⟨a, b⟩ := kv
      simp only at hfst
      rw [← hfst]
      exact hmem
    have hl : alookup P.successors k = some kv.2 :=
      alookup_of_mem_of_nodup P.successors k kv.2 h hkv'
    rw [get_successors_of_task, hl]
    exact hdec
  · intro hs
    rw [get_successors_of_task] at hs
    cases hl : alookup P.successors k with
    | none => rw [hl] at hs; cases hs
    | some l =>
      rw [hl] at hs
      have hmem : (k, l) ∈ P.successors := mem_of_alookup P.successors k l hl
      exact List.mem_map.mpr
        ⟨(k, l), List.mem_filter.mpr ⟨hmem, by simpa using hs⟩, rfl⟩

/-- Witness for C9: on the example instance, task 1 is a derived predecessor
of task 3 exactly because 3 is among the successors of 1. -/
theorem predsOf_inverse_successors_witness :
    (1 ∈ predsOf exP 3) ↔ (3 ∈ get_successors_of_task exP 1) :=
  predsOf_inverse_successors exP 1 3 (by decide)

/-- Claim C10: `get_successors_of_task` returns the empty list when the task
has no entry in the successor dictionary, and exactly the stored list when
it has one. -/
theorem get_successors_of_task_spec (P : RcpspProblem) (t : ℕ) :
    (t ∉ P.successors.map Prod.fst → get_successors_of_task P t = []) ∧
    (∀ l, (P.successors.map Prod.fst).Nodup → (t, l) ∈ P.successors →
      get_successors_of_task P t = l) := by
  constructor
  · intro h
    rw [get_successors_of_task, alookup_eq_none_of_not_mem_keys P.successors t h]
    rfl
  · intro l hn hm
    rw [get_successors_of_task, alookup_of_mem_of_nodup P.successors t l hn hm]
    rfl

/-- Witness for C10: an unknown task yields the empty list, a known task its
stored successor list. -/
theorem get_successors_of_task_spec_witness :
    get_successors_of_task exP 99 = [] ∧ get_successors_of_task exP 1 = [3] :=
  ⟨(get_successors_of_task_spec exP 99).1 (by decide),
   (get_successors_of_task_spec exP 1).2 [3] (by decide) (by decide)⟩
